import Mathlib

/-!
Verification of the stepwise (forward-backward) feature-selection algorithm
of `stock_estimate.py` (function `stepwise_selection`, lines 5-51).

The OLS fit is the external collaborator of spec §6: it is modelled as an
oracle `OLS` giving, for a design (a list of column names) and a coefficient
name, the p-value of that coefficient in the fit of `y` on those columns
(`sm.OLS(y, X[design]).fit().pvalues[name]`).  Floating-point p-values are
modelled as rationals; the algorithm only compares them.  The `verbose`
printing (lines 36-37, 47-48) is purely observational and is omitted.
The unbounded `while True` loop (line 23) is given explicit fuel counting
passes; `none` means that many passes did not reach the `not changed` exit.
-/

namespace StockEstimate

/-- Feature names (pandas column labels). -/
abbrev Name := String

/-- p-values; the script's floats are modelled as rationals. -/
abbrev PVal := ℚ

/-- The OLS-fit collaborator (spec §6): `pval d c` is the p-value of
coefficient `c` in the fit of `y` on the design columns `d`. -/
structure OLS where
  pval : List Name → Name → PVal

/-- First position of the minimum of `f` over a list, returned as the element
itself (pandas `Series.argmin` convention: first occurrence among ties). -/
def argmin (f : Name → PVal) : List Name → Option Name
  | [] => none
  | x :: xs =>
    match argmin f xs with
    | none => some x
    | some y => if f x ≤ f y then some x else some y

/-- First position of the maximum of `f` over a list, returned as the element
itself (pandas `Series.argmax` convention: first occurrence among ties). -/
def argmax (f : Name → PVal) : List Name → Option Name
  | [] => none
  | x :: xs =>
    match argmax f xs with
    | none => some x
    | some y => if f y ≤ f x then some x else some y

/-- Line 26: `excluded = list(set(X.columns) - set(included))`.  The Python
set iteration order is unspecified; it is determinised here as
first-occurrence order over `columns`. -/
def excludedOf (columns included : List Name) : List Name :=
  (columns.filter (fun c => decide (c ∉ included))).dedup

/-- Lines 26-37: the forward step.  Fits `y` on `included ++ [c]` for every
excluded `c`, reads the p-value of coefficient `c`, and appends the feature
with the smallest p-value when that p-value is strictly below
`threshold_in`.  When `excluded` is empty the Series minimum is NaN and
`NaN < threshold_in` is false, so nothing happens.  Returns the new
`included` and the `changed` flag contribution. -/
def forwardStep (ols : OLS) (columns : List Name) (threshold_in : PVal)
    (included : List Name) : List Name × Bool :=
  let excluded := excludedOf columns included
  let newPval := fun c => ols.pval (included ++ [c]) c
  match argmin newPval excluded with
  | none => (included, false)
  | some best =>
    if newPval best < threshold_in then (included ++ [best], true)
    else (included, false)

/-- Lines 39-48: the backward step.  Fits `y` on all of `included`, takes the
largest coefficient p-value, and removes (first occurrence, Python
`list.remove`) that coefficient when its p-value strictly exceeds
`threshold_out`.  When `included` is empty, `pvalues.max()` is null
(comment on line 42) and the comparison is false. -/
def backwardStep (ols : OLS) (threshold_out : PVal)
    (included : List Name) : List Name × Bool :=
  let pvalues := fun c => ols.pval included c
  match argmax pvalues included with
  | none => (included, false)
  | some worst =>
    if threshold_out < pvalues worst then (included.erase worst, true)
    else (included, false)

/-- One iteration of the `while True` body (lines 23-48): forward step, then
backward step on its result; `changed` is true when either step fired. -/
def stepPass (ols : OLS) (columns : List Name) (threshold_in threshold_out : PVal)
    (included : List Name) : List Name × Bool :=
  let fwd := forwardStep ols columns threshold_in included
  let bwd := backwardStep ols threshold_out fwd.1
  (bwd.1, fwd.2 || bwd.2)

/-- The `while True` loop (lines 23-50) with explicit fuel counting passes;
`none` means the given number of passes did not reach the `not changed`
exit (line 49-50). -/
def selLoop (ols : OLS) (columns : List Name) (threshold_in threshold_out : PVal) :
    Nat → List Name → Option (List Name)
  | 0, _ => none
  | fuel + 1, included =>
    let p := stepPass ols columns threshold_in threshold_out included
    if p.2 then selLoop ols columns threshold_in threshold_out fuel p.1
    else some p.1

/-- Lines 5-51: `stepwise_selection`.  Line 22 (`included =
list(initial_list)`) copies the argument, which in this value-level model is
the identity; the aliasing content of that line is treated by the heap model
below. -/
def stepwise_selection (ols : OLS) (columns : List Name) (initial_list : List Name)
    (threshold_in threshold_out : PVal) (fuel : Nat) : Option (List Name) :=
  selLoop ols columns threshold_in threshold_out fuel initial_list

/-- A minimal heap of Python list values, for the aliasing content of line 22
(`included = list(initial_list)`): cells indexed by allocation order. -/
abbrev Heap := List (List Name)

/-- A reference into a `Heap`. -/
abbrev Ref := Nat

/-- Reading a list-valued cell. -/
def readRef (h : Heap) (r : Ref) : List Name := h.getD r []

/-- In-place mutation of a list-valued cell, as performed by
`included.append(...)` (line 34) and `included.remove(...)` (line 46). -/
def writeRef (h : Heap) (r : Ref) (v : List Name) : Heap := h.set r v

/-- The loop of lines 23-50 acting on the heap: `included` lives in the cell
`r`; each step reads it, computes, and writes the mutated list back to the
same cell. -/
def selLoopH (ols : OLS) (columns : List Name) (threshold_in threshold_out : PVal) :
    Nat → Heap → Ref → Option (Heap × Ref)
  | 0, _, _ => none
  | fuel + 1, h, r =>
    let fwd := forwardStep ols columns threshold_in (readRef h r)
    let h1 := writeRef h r fwd.1
    let bwd := backwardStep ols threshold_out (readRef h1 r)
    let h2 := writeRef h1 r bwd.1
    if fwd.2 || bwd.2 then selLoopH ols columns threshold_in threshold_out fuel h2 r
    else some (h2, r)

/-- `stepwise_selection` on the heap: line 22 (`included = list(initial_list)`)
allocates a fresh cell holding a copy of the argument cell's value; the loop
then mutates only the fresh cell, and line 51 returns a reference to it. -/
def stepwise_selectionH (ols : OLS) (columns : List Name)
    (threshold_in threshold_out : PVal) (fuel : Nat) (h : Heap) (rInit : Ref) :
    Option (Heap × Ref) :=
  selLoopH ols columns threshold_in threshold_out fuel (h ++ [readRef h rInit]) h.length

/-- The loop of lines 23-50, additionally recording in order the design (list
of column names) of every `sm.OLS` fit performed: one design
`included ++ [c]` per excluded candidate `c` (line 29), then the design
`included` of the backward fit (line 40, computed after any forward
addition). -/
def selLoopFits (ols : OLS) (columns : List Name) (threshold_in threshold_out : PVal) :
    Nat → List Name → List (List Name) → Option (List (List Name) × List Name)
  | 0, _, _ => none
  | fuel + 1, included, acc =>
    let fwd := forwardStep ols columns threshold_in included
    let bwd := backwardStep ols threshold_out fwd.1
    let acc2 := acc ++ (excludedOf columns included).map (fun c => included ++ [c]) ++ [fwd.1]
    if fwd.2 || bwd.2 then selLoopFits ols columns threshold_in threshold_out fuel bwd.1 acc2
    else some (acc2, bwd.1)

/-- `stepwise_selection` instrumented with the trace of OLS fit designs. -/
def stepwise_selectionFits (ols : OLS) (columns : List Name) (initial_list : List Name)
    (threshold_in threshold_out : PVal) (fuel : Nat) :
    Option (List (List Name) × List Name) :=
  selLoopFits ols columns threshold_in threshold_out fuel initial_list []

/-- The loop of lines 23-50, additionally recording the forward additions in
the order they are made (the addition history): each pass appends to the
ghost accumulator the suffix the forward step appended to `included`
(`[best]` when line 34 fired, `[]` otherwise); the backward removals of line
46 touch `included` but never the history. -/
def selLoopAdds (ols : OLS) (columns : List Name) (threshold_in threshold_out : PVal) :
    Nat → List Name → List Name → Option (List Name × List Name)
  | 0, _, _ => none
  | fuel + 1, included, adds =>
    let fwd := forwardStep ols columns threshold_in included
    let adds2 := adds ++ fwd.1.drop included.length
    let bwd := backwardStep ols threshold_out fwd.1
    if fwd.2 || bwd.2 then selLoopAdds ols columns threshold_in threshold_out fuel bwd.1 adds2
    else some (adds2, bwd.1)

/-- `stepwise_selection` instrumented with the addition history: returns the
forward additions in the order they were made, together with the result. -/
def stepwise_selectionAdds (ols : OLS) (columns : List Name) (initial_list : List Name)
    (threshold_in threshold_out : PVal) (fuel : Nat) : Option (List Name × List Name) :=
  selLoopAdds ols columns threshold_in threshold_out fuel initial_list []

/-- An OLS collaborator returning the same p-value for every coefficient of
every design. -/
def constOLS (q : PVal) : OLS := ⟨fun _ _ => q⟩

/-- An OLS collaborator whose p-values depend only on the design viewed as a
set (as genuine OLS p-values do), arranged so that the selection loop cycles
through the states `[x] → [y] → [z] → [x]` forever. -/
def cycOLS : OLS :=
  ⟨fun d c =>
    if d.contains "x" && d.contains "y" then (if c == "y" then 1 else 10)
    else if d.contains "y" && d.contains "z" then (if c == "z" then 1 else 10)
    else if d.contains "x" && d.contains "z" then (if c == "x" then 1 else 10)
    else 10⟩

theorem argmin_eq_none {f : Name → PVal} : ∀ {l : List Name}, argmin f l = none ↔ l = []
  | [] => by simp [argmin]
  | x :: xs => by
    simp only [argmin]
    cases hx : argmin f xs with
    | none => simp
    | some y => by_cases hc : f x ≤ f y <;> simp [hc]

theorem argmax_eq_none {f : Name → PVal} : ∀ {l : List Name}, argmax f l = none ↔ l = []
  | [] => by simp [argmax]
  | x :: xs => by
    simp only [argmax]
    cases hx : argmax f xs with
    | none => simp
    | some y => by_cases hc : f y ≤ f x <;> simp [hc]

theorem argmin_mem {f : Name → PVal} {l : List Name} {b : Name}
    (h : argmin f l = some b) : b ∈ l := by
  induction l generalizing b with
  | nil => simp [argmin] at h
  | cons x xs ih =>
    simp only [argmin] at h
    cases hx : argmin f xs with
    | none => rw [hx] at h; simp_all
    | some y =>
      rw [hx] at h
      by_cases hc : f x ≤ f y
      · simp [hc] at h; simp [h]
      · simp [hc] at h; exact List.mem_cons_of_mem _ (h ▸ ih hx)

theorem argmin_le {f : Name → PVal} {l : List Name} {b : Name}
    (h : argmin f l = some b) : ∀ c ∈ l, f b ≤ f c := by
  induction l generalizing b with
  | nil => simp [argmin] at h
  | cons x xs ih =>
    simp only [argmin] at h
    cases hx : argmin f xs with
    | none =>
      rw [hx] at h
      simp only [Option.some.injEq] at h
      subst h
      intro c hc
      rcases List.mem_cons.mp hc with rfl | hmem
      · exact le_refl _
      · exact absurd (argmin_eq_none.mp hx ▸ hmem) (List.not_mem_nil c)
    | some y =>
      rw [hx] at h
      by_cases hcmp : f x ≤ f y
      · simp only [if_pos hcmp, Option.some.injEq] at h
        subst h
        intro c hc
        rcases List.mem_cons.mp hc with rfl | hmem
        · exact le_refl _
        · exact le_trans hcmp (ih hx c hmem)
      · simp only [if_neg hcmp, Option.some.injEq] at h
        subst h
        intro c hc
        rcases List.mem_cons.mp hc with rfl | hmem
        · exact le_of_lt (lt_of_not_le hcmp)
        · exact ih hx c hmem

theorem argmax_mem {f : Name → PVal} {l : List Name} {b : Name}
    (h : argmax f l = some b) : b ∈ l := by
  induction l generalizing b with
  | nil => simp [argmax] at h
  | cons x xs ih =>
    simp only [argmax] at h
    cases hx : argmax f xs with
    | none => rw [hx] at h; simp_all
    | some y =>
      rw [hx] at h
      by_cases hc : f y ≤ f x
      · simp [hc] at h; simp [h]
      · simp [hc] at h; exact List.mem_cons_of_mem _ (h ▸ ih hx)

theorem argmax_ge {f : Name → PVal} {l : List Name} {b : Name}
    (h : argmax f l = some b) : ∀ c ∈ l, f c ≤ f b := by
  induction l generalizing b with
  | nil => simp [argmax] at h
  | cons x xs ih =>
    simp only [argmax] at h
    cases hx : argmax f xs with
    | none =>
      rw [hx] at h
      simp only [Option.some.injEq] at h
      subst h
      intro c hc
      rcases List.mem_cons.mp hc with rfl | hmem
      · exact le_refl _
      · exact absurd (argmax_eq_none.mp hx ▸ hmem) (List.not_mem_nil c)
    | some y =>
      rw [hx] at h
      by_cases hcmp : f y ≤ f x
      · simp only [if_pos hcmp, Option.some.injEq] at h
        subst h
        intro c hc
        rcases List.mem_cons.mp hc with rfl | hmem
        · exact le_refl _
        · exact le_trans (ih hx c hmem) hcmp
      · simp only [if_neg hcmp, Option.some.injEq] at h
        subst h
        intro c hc
        rcases List.mem_cons.mp hc with rfl | hmem
        · exact le_of_lt (lt_of_not_le hcmp)
        · exact ih hx c hmem

theorem mem_excludedOf {columns included : List Name} {c : Name} :
    c ∈ excludedOf columns included ↔ c ∈ columns ∧ c ∉ included := by
  simp [excludedOf, List.mem_dedup, List.mem_filter]

theorem forwardStep_spec (ols : OLS) (columns : List Name) (tIn : PVal) (m : List Name) :
    (forwardStep ols columns tIn m = (m, false) ∧
      (∀ c ∈ columns, c ∉ m → tIn ≤ ols.pval (m ++ [c]) c)) ∨
    (∃ b, b ∈ columns ∧ b ∉ m ∧ ols.pval (m ++ [b]) b < tIn ∧
      (∀ c ∈ columns, c ∉ m → ols.pval (m ++ [b]) b ≤ ols.pval (m ++ [c]) c) ∧
      forwardStep ols columns tIn m = (m ++ [b], true)) := by
  cases hx : argmin (fun c => ols.pval (m ++ [c]) c) (excludedOf columns m) with
  | none =>
    left
    constructor
    · simp [forwardStep, hx]
    · intro c hc hnm
      have : c ∈ excludedOf columns m := mem_excludedOf.mpr ⟨hc, hnm⟩
      rw [argmin_eq_none.mp hx] at this
      exact absurd this (List.not_mem_nil c)
  | some b =>
    have hbmem := mem_excludedOf.mp (argmin_mem hx)
    by_cases hlt : ols.pval (m ++ [b]) b < tIn
    · right
      exact ⟨b, hbmem.1, hbmem.2, hlt,
        fun c hc hnm => argmin_le hx c (mem_excludedOf.mpr ⟨hc, hnm⟩),
        by simp [forwardStep, hx, hlt]⟩
    · left
      constructor
      · simp [forwardStep, hx, hlt]
      · intro c hc hnm
        exact le_trans (not_lt.mp hlt) (argmin_le hx c (mem_excludedOf.mpr ⟨hc, hnm⟩))

theorem backwardStep_spec (ols : OLS) (tOut : PVal) (m : List Name) :
    (backwardStep ols tOut m = (m, false) ∧ (∀ g ∈ m, ols.pval m g ≤ tOut)) ∨
    (∃ w, w ∈ m ∧ tOut < ols.pval m w ∧
      (∀ g ∈ m, ols.pval m g ≤ ols.pval m w) ∧
      backwardStep ols tOut m = (m.erase w, true)) := by
  cases hx : argmax (fun c => ols.pval m c) m with
  | none =>
    left
    constructor
    · simp [backwardStep, hx]
    · intro g hg
      rw [argmax_eq_none.mp hx] at hg
      exact absurd hg (List.not_mem_nil g)
  | some w =>
    by_cases hgt : tOut < ols.pval m w
    · right
      exact ⟨w, argmax_mem hx, hgt, fun g hg => argmax_ge hx g hg,
        by simp [backwardStep, hx, hgt]⟩
    · left
      constructor
      · simp [backwardStep, hx, hgt]
      · intro g hg
        exact le_trans (argmax_ge hx g hg) (not_lt.mp hgt)

theorem forwardStep_of_quiet (ols : OLS) (columns : List Name) (tIn : PVal)
    (m : List Name) (hq : ∀ c ∈ columns, c ∉ m → tIn ≤ ols.pval (m ++ [c]) c) :
    forwardStep ols columns tIn m = (m, false) := by
  rcases forwardStep_spec ols columns tIn m with ⟨hf, _⟩ | ⟨b, hbc, hbm, hblt, _, _⟩
  · exact hf
  · exact absurd hblt (not_lt.mpr (hq b hbc hbm))

theorem backwardStep_of_quiet (ols : OLS) (tOut : PVal) (m : List Name)
    (hq : ∀ g ∈ m, ols.pval m g ≤ tOut) :
    backwardStep ols tOut m = (m, false) := by
  rcases backwardStep_spec ols tOut m with ⟨hb, _⟩ | ⟨w, hwm, hwgt, _, _⟩
  · exact hb
  · exact absurd hwgt (not_lt.mpr (hq w hwm))

theorem selLoop_succ (ols : OLS) (columns : List Name) (tIn tOut : PVal)
    (fuel : Nat) (m : List Name) :
    selLoop ols columns tIn tOut (fuel + 1) m =
      if (stepPass ols columns tIn tOut m).2 then
        selLoop ols columns tIn tOut fuel (stepPass ols columns tIn tOut m).1
      else some (stepPass ols columns tIn tOut m).1 := rfl

theorem stepPass_eq (ols : OLS) (columns : List Name) (tIn tOut : PVal) (m : List Name) :
    stepPass ols columns tIn tOut m =
      ((backwardStep ols tOut (forwardStep ols columns tIn m).1).1,
        (forwardStep ols columns tIn m).2 ||
          (backwardStep ols tOut (forwardStep ols columns tIn m).1).2) := rfl

/-- Claim C1: whenever `stepwise_selection` terminates and returns a list,
that list is a local fixed point: the backward fit on exactly the returned
list yields no coefficient p-value strictly above `threshold_out`, and for
every column of `X` not in the returned list, the forward fit with that
column appended yields a p-value for it that is not strictly below
`threshold_in`. -/
theorem stepwise_selection_fixed_point (ols : OLS) (columns : List Name)
    (init : List Name) (tIn tOut : PVal) (fuel : Nat) (l : List Name)
    (h : stepwise_selection ols columns init tIn tOut fuel = some l) :
    (∀ g ∈ l, ols.pval l g ≤ tOut) ∧
    (∀ c ∈ columns, c ∉ l → tIn ≤ ols.pval (l ++ [c]) c) := by
  rw [stepwise_selection] at h
  induction fuel generalizing init with
  | zero => simp [selLoop] at h
  | succ n ih =>
    rw [selLoop_succ] at h
    rcases forwardStep_spec ols columns tIn init with ⟨hf, hfq⟩ | ⟨b, _, _, _, _, hf⟩
    · rcases backwardStep_spec ols tOut init with ⟨hb, hbq⟩ | ⟨w, _, _, _, hb⟩
      · have hp : stepPass ols columns tIn tOut init = (init, false) := by
          rw [stepPass_eq, hf, hb]; rfl
        rw [hp] at h
        simp only [Bool.false_eq_true, if_false, Option.some.injEq] at h
        subst h
        exact ⟨hbq, hfq⟩
      · have hp : stepPass ols columns tIn tOut init = (init.erase w, true) := by
          rw [stepPass_eq, hf, hb]; rfl
        rw [hp] at h
        simp only [if_true] at h
        exact ih _ h
    · rcases backwardStep_spec ols tOut (init ++ [b]) with ⟨hb, _⟩ | ⟨w, _, _, _, hb⟩
      · have hp : stepPass ols columns tIn tOut init = (init ++ [b], true) := by
          rw [stepPass_eq, hf, hb]; rfl
        rw [hp] at h
        simp only [if_true] at h
        exact ih _ h
      · have hp : stepPass ols columns tIn tOut init = ((init ++ [b]).erase w, true) := by
          rw [stepPass_eq, hf, hb]; rfl
        rw [hp] at h
        simp only [if_true] at h
        exact ih _ h

theorem stepwise_selection_fixed_point_witness :
    (∀ g ∈ (["a"] : List Name), (constOLS 1).pval ["a"] g ≤ 5) ∧
    (∀ c ∈ (["a"] : List Name), c ∉ (["a"] : List Name) →
      3 ≤ (constOLS 1).pval (["a"] ++ [c]) c) :=
  stepwise_selection_fixed_point (constOLS 1) ["a"] [] 3 5 2 ["a"] (by decide)

/-- Claim C3 (amended): the reference implementation performs no eager
threshold validation and has no error outcome at all; with
`threshold_in >= threshold_out` the call enters the selection loop normally,
and when the initial list is already quiescent (no excluded feature below
`threshold_in`, no included feature above `threshold_out`) it returns that
list rather than failing with a `ConfigError`. -/
theorem stepwise_selection_no_config_check (ols : OLS) (columns : List Name)
    (init : List Name) (tIn tOut : PVal) (fuel : Nat)
    (_hcfg : tOut ≤ tIn)
    (hf : ∀ c ∈ columns, c ∉ init → tIn ≤ ols.pval (init ++ [c]) c)
    (hb : ∀ g ∈ init, ols.pval init g ≤ tOut) :
    stepwise_selection ols columns init tIn tOut (fuel + 1) = some init := by
  rw [stepwise_selection, selLoop_succ, stepPass_eq,
    forwardStep_of_quiet ols columns tIn init hf, backwardStep_of_quiet ols tOut init hb]
  rfl

theorem stepwise_selection_no_config_check_witness :
    stepwise_selection (constOLS 10) ["a"] [] 5 5 1 = some [] :=
  stepwise_selection_no_config_check (constOLS 10) ["a"] [] 5 5 0
    (le_refl 5) (by decide) (by decide)

/-- Claim C3 (counterexample): with `threshold_in = threshold_out = 5` (so
`threshold_in >= threshold_out`), the call does not fail: the loop runs a
full pass and returns normally. -/
theorem stepwise_selection_misconfigured_returns :
    (5 : PVal) ≤ 5 ∧ stepwise_selection (constOLS 10) ["a","b"] [] 5 5 1 = some [] :=
  ⟨le_refl 5, by decide⟩

/-- Claim C4 (amended): if no forward step ever finds an excluded feature
with p-value strictly below `threshold_in` and, in addition, no member of
the initial list has backward p-value strictly above `threshold_out`, then
`stepwise_selection` returns the (possibly empty) initial list unchanged,
and this outcome is a normal return, not an error.  (Without the backward
condition, initial members whose p-value exceeds `threshold_out` are
dropped, so the returned list can differ from the initial one.) -/
theorem stepwise_selection_keeps_initial (ols : OLS) (columns : List Name)
    (init : List Name) (tIn tOut : PVal) (fuel : Nat)
    (hf : ∀ c ∈ columns, c ∉ init → tIn ≤ ols.pval (init ++ [c]) c)
    (hb : ∀ g ∈ init, ols.pval init g ≤ tOut) :
    stepwise_selection ols columns init tIn tOut (fuel + 1) = some init := by
  rw [stepwise_selection, selLoop_succ, stepPass_eq,
    forwardStep_of_quiet ols columns tIn init hf, backwardStep_of_quiet ols tOut init hb]
  rfl

theorem stepwise_selection_keeps_initial_witness :
    stepwise_selection (constOLS 4) ["a"] [] 3 5 1 = some [] :=
  stepwise_selection_keeps_initial (constOLS 4) ["a"] [] 3 5 0 (by decide) (by decide)

/-- Claim C4 (counterexample): with every p-value equal to 10 (so no forward
step ever finds a p-value below `threshold_in = 3`), the call on
`initial = ["a"]` does not return the initial list: the backward step drops
`"a"` (p-value 10 > threshold_out = 5) and `[]` is returned. -/
theorem stepwise_selection_drops_initial :
    stepwise_selection (constOLS 10) ["a"] ["a"] 3 5 2 = some [] ∧
    (["a"] : List Name) ≠ [] := ⟨by decide, by decide⟩

/-- Claim C5: when the initial list has no duplicates and all its names are
columns of `X`, validity (all names are columns, no duplicates) is preserved
by every pass (hence by every add and every remove), and the returned list
is valid. -/
theorem stepwise_selection_valid_names (ols : OLS) (columns : List Name)
    (tIn tOut : PVal) :
    (∀ m, m.Nodup → (∀ c ∈ m, c ∈ columns) →
      ((stepPass ols columns tIn tOut m).1.Nodup ∧
        ∀ c ∈ (stepPass ols columns tIn tOut m).1, c ∈ columns)) ∧
    (∀ init fuel l, init.Nodup → (∀ c ∈ init, c ∈ columns) →
      stepwise_selection ols columns init tIn tOut fuel = some l →
      l.Nodup ∧ ∀ c ∈ l, c ∈ columns) := by
  have hback : ∀ m1, m1.Nodup → (∀ c ∈ m1, c ∈ columns) →
      ((backwardStep ols tOut m1).1.Nodup ∧
        ∀ c ∈ (backwardStep ols tOut m1).1, c ∈ columns) := by
    intro m1 h1 h2
    rcases backwardStep_spec ols tOut m1 with ⟨hb, _⟩ | ⟨w, _, _, _, hb⟩
    · rw [hb]; exact ⟨h1, h2⟩
    · rw [hb]
      exact ⟨h1.erase w, fun c hc => h2 c (List.erase_subset _ _ hc)⟩
  have hpass : ∀ m, m.Nodup → (∀ c ∈ m, c ∈ columns) →
      ((stepPass ols columns tIn tOut m).1.Nodup ∧
        ∀ c ∈ (stepPass ols columns tIn tOut m).1, c ∈ columns) := by
    intro m hnd hsub
    rcases forwardStep_spec ols columns tIn m with ⟨hf, _⟩ | ⟨b, hbc, hbm, _, _, hf⟩
    · rw [stepPass_eq, hf]
      exact hback m hnd hsub
    · rw [stepPass_eq, hf]
      refine hback (m ++ [b]) ?_ ?_
      · simp [List.nodup_append, hnd, hbm]
      · intro c hc
        rcases List.mem_append.mp hc with hcm | hcb
        · exact hsub c hcm
        · rw [List.mem_singleton.mp hcb]; exact hbc
  refine ⟨hpass, ?_⟩
  intro init fuel l
  rw [stepwise_selection]
  induction fuel generalizing init with
  | zero => intro _ _ h; simp [selLoop] at h
  | succ n ih =>
    intro hnd hsub h
    rw [selLoop_succ] at h
    by_cases hch : (stepPass ols columns tIn tOut init).2 = true
    · rw [if_pos hch] at h
      exact ih _ (hpass init hnd hsub).1 (hpass init hnd hsub).2 h
    · rw [if_neg hch] at h
      simp only [Option.some.injEq] at h
      subst h
      exact hpass init hnd hsub

theorem stepwise_selection_valid_names_witness :
    (["a","b"] : List Name).Nodup ∧ ∀ c ∈ (["a","b"] : List Name), c ∈ (["a","b"] : List Name) :=
  (stepwise_selection_valid_names (constOLS 1) ["a","b"] 3 5).2 [] 3 ["a","b"]
    (by decide) (by decide) (by decide)

/-- Claim C6: with zero candidate columns and an empty initial list, the call
returns `some []` after the first pass, without error; more generally the
forward step contributes no change when the excluded set is empty, and the
backward step contributes no change when `included` is empty. -/
theorem stepwise_selection_empty_matrix (ols : OLS) (columns : List Name)
    (tIn tOut : PVal) :
    (∀ m, excludedOf columns m = [] → forwardStep ols columns tIn m = (m, false)) ∧
    backwardStep ols tOut [] = ([], false) ∧
    ∀ fuel, stepwise_selection ols [] [] tIn tOut (fuel + 1) = some [] := by
  refine ⟨?_, ?_, ?_⟩
  · intro m hm
    simp [forwardStep, hm, argmin]
  · simp [backwardStep, argmax]
  · intro fuel
    have h1 : stepPass ols [] tIn tOut [] = ([], false) := by
      have hf : forwardStep ols [] tIn [] = ([], false) := by
        simp [forwardStep, excludedOf, argmin]
      have hb : backwardStep ols tOut [] = ([], false) := by
        simp [backwardStep, argmax]
      rw [stepPass_eq, hf, hb]; rfl
    rw [stepwise_selection, selLoop_succ, h1]
    rfl

theorem stepwise_selection_empty_matrix_witness :
    forwardStep (constOLS 1) [] 3 [] = ([], false) :=
  (stepwise_selection_empty_matrix (constOLS 1) [] 3 5).1 [] rfl

/-- Claim C7: the forward step appends the (first-occurrence) minimum-p-value
excluded feature exactly when that minimum p-value is strictly below
`threshold_in`, and the backward step removes the (first-occurrence)
maximum-p-value included feature exactly when that maximum strictly exceeds
`threshold_out`; a p-value exactly equal to the respective threshold causes
no change. -/
theorem stepwise_steps_strict_thresholds (ols : OLS) (columns : List Name)
    (tIn tOut : PVal) (m : List Name) :
    (∀ b, argmin (fun c => ols.pval (m ++ [c]) c) (excludedOf columns m) = some b →
      ((ols.pval (m ++ [b]) b < tIn → forwardStep ols columns tIn m = (m ++ [b], true)) ∧
       (tIn ≤ ols.pval (m ++ [b]) b → forwardStep ols columns tIn m = (m, false)))) ∧
    (∀ w, argmax (fun c => ols.pval m c) m = some w →
      ((tOut < ols.pval m w → backwardStep ols tOut m = (m.erase w, true)) ∧
       (ols.pval m w ≤ tOut → backwardStep ols tOut m = (m, false)))) := by
  constructor
  · intro b hb
    constructor
    · intro hlt; simp [forwardStep, hb, hlt]
    · intro hle; simp [forwardStep, hb, not_lt.mpr hle]
  · intro w hw
    constructor
    · intro hgt; simp [backwardStep, hw, hgt]
    · intro hle; simp [backwardStep, hw, not_lt.mpr hle]

theorem stepwise_steps_strict_thresholds_witness :
    forwardStep (constOLS 1) ["a"] 3 [] = (["a"], true) :=
  ((stepwise_steps_strict_thresholds (constOLS 1) ["a"] 3 5 []).1 "a" (by decide)).1
    (by decide)

theorem forwardStep_fst_eq_append_drop (ols : OLS) (columns : List Name)
    (tIn : PVal) (m : List Name) :
    (forwardStep ols columns tIn m).1 =
      m ++ (forwardStep ols columns tIn m).1.drop m.length := by
  rcases forwardStep_spec ols columns tIn m with ⟨hf, _⟩ | ⟨b, _, _, _, _, hf⟩
  · rw [hf]; simp [List.drop_length]
  · rw [hf]; simp [List.drop_left]

theorem backwardStep_fst_sublist (ols : OLS) (tOut : PVal) (m1 : List Name) :
    List.Sublist (backwardStep ols tOut m1).1 m1 := by
  rcases backwardStep_spec ols tOut m1 with ⟨hb, _⟩ | ⟨w, _, _, _, hb⟩
  · rw [hb]
  · rw [hb]; exact List.erase_sublist _ _

theorem selLoopAdds_snd (ols : OLS) (columns : List Name) (tIn tOut : PVal) :
    ∀ (fuel : Nat) (m acc : List Name),
      Option.map Prod.snd (selLoopAdds ols columns tIn tOut fuel m acc) =
        selLoop ols columns tIn tOut fuel m := by
  intro fuel
  induction fuel with
  | zero => intro m acc; rfl
  | succ n ih =>
    intro m acc
    rw [selLoop_succ, stepPass_eq]
    simp only [selLoopAdds]
    by_cases hch : ((forwardStep ols columns tIn m).2 ||
        (backwardStep ols tOut (forwardStep ols columns tIn m).1).2) = true
    · rw [if_pos hch, if_pos hch]
      exact ih _ _
    · rw [if_neg hch, if_neg hch]
      rfl

theorem selLoopAdds_decompose (ols : OLS) (columns : List Name) (tIn tOut : PVal) :
    ∀ (fuel : Nat) (m acc adds l : List Name),
      selLoopAdds ols columns tIn tOut fuel m acc = some (adds, l) →
      ∃ suffix, adds = acc ++ suffix ∧ List.Sublist l (m ++ suffix) := by
  intro fuel
  induction fuel with
  | zero =>
    intro m acc adds l h
    exact absurd h (by simp [selLoopAdds])
  | succ n ih =>
    intro m acc adds l h
    simp only [selLoopAdds] at h
    by_cases hch : ((forwardStep ols columns tIn m).2 ||
        (backwardStep ols tOut (forwardStep ols columns tIn m).1).2) = true
    · rw [if_pos hch] at h
      obtain ⟨suffix, hadds, hsub⟩ := ih _ _ _ _ h
      refine ⟨(forwardStep ols columns tIn m).1.drop m.length ++ suffix, ?_, ?_⟩
      · rw [hadds, List.append_assoc]
      · have h2 : List.Sublist
            ((backwardStep ols tOut (forwardStep ols columns tIn m).1).1 ++ suffix)
            ((forwardStep ols columns tIn m).1 ++ suffix) :=
          (backwardStep_fst_sublist ols tOut _).append_right suffix
        have h3 : List.Sublist l ((forwardStep ols columns tIn m).1 ++ suffix) :=
          hsub.trans h2
        rw [forwardStep_fst_eq_append_drop ols columns tIn m, List.append_assoc] at h3
        exact h3
    · rw [if_neg hch] at h
      simp only [Option.some.injEq, Prod.mk.injEq] at h
      obtain ⟨hadds, hl⟩ := h
      refine ⟨(forwardStep ols columns tIn m).1.drop m.length, hadds.symm, ?_⟩
      rw [← hl, ← forwardStep_fst_eq_append_drop ols columns tIn m]
      exact backwardStep_fst_sublist ols tOut _

/-- Claim C8: each pass transforms `included` by at most one append of a
fresh feature at the end followed by at most one order-preserving erase
(the remaining members keep their relative order: the result is a sublist of
the pre-erase list); and any returned list is, in order, a sublist of the
initial list followed by the recorded addition history: the instrumented
run `stepwise_selectionAdds` returns the same result together with the
forward additions `adds` in the order they were made, and the result is a
sublist of `initial ++ adds`. -/
theorem stepwise_selection_insertion_order (ols : OLS) (columns : List Name)
    (tIn tOut : PVal) :
    (∀ m, ∃ mid, (mid = m ∨ ∃ c, c ∉ m ∧ mid = m ++ [c]) ∧
      ((stepPass ols columns tIn tOut m).1 = mid ∨
        ∃ w ∈ mid, (stepPass ols columns tIn tOut m).1 = mid.erase w ∧
          List.Sublist (stepPass ols columns tIn tOut m).1 mid)) ∧
    (∀ init fuel l, stepwise_selection ols columns init tIn tOut fuel = some l →
      ∃ adds, stepwise_selectionAdds ols columns init tIn tOut fuel = some (adds, l) ∧
        List.Sublist l (init ++ adds)) := by
  have hstep : ∀ m, ∃ mid, (mid = m ∨ ∃ c, c ∉ m ∧ mid = m ++ [c]) ∧
      ((stepPass ols columns tIn tOut m).1 = mid ∨
        ∃ w ∈ mid, (stepPass ols columns tIn tOut m).1 = mid.erase w ∧
          List.Sublist (stepPass ols columns tIn tOut m).1 mid) := by
    intro m
    rcases forwardStep_spec ols columns tIn m with ⟨hf, _⟩ | ⟨b, _, hbm, _, _, hf⟩
    · rcases backwardStep_spec ols tOut m with ⟨hb, _⟩ | ⟨w, hwm, _, _, hb⟩
      · exact ⟨m, Or.inl rfl, Or.inl (by rw [stepPass_eq, hf, hb])⟩
      · refine ⟨m, Or.inl rfl, Or.inr ⟨w, hwm, by rw [stepPass_eq, hf, hb], ?_⟩⟩
        rw [stepPass_eq, hf, hb]
        exact List.erase_sublist _ _
    · rcases backwardStep_spec ols tOut (m ++ [b]) with ⟨hb, _⟩ | ⟨w, hwm, _, _, hb⟩
      · exact ⟨m ++ [b], Or.inr ⟨b, hbm, rfl⟩, Or.inl (by rw [stepPass_eq, hf, hb])⟩
      · refine ⟨m ++ [b], Or.inr ⟨b, hbm, rfl⟩,
          Or.inr ⟨w, hwm, by rw [stepPass_eq, hf, hb], ?_⟩⟩
        rw [stepPass_eq, hf, hb]
        exact List.erase_sublist _ _
  refine ⟨hstep, ?_⟩
  intro init fuel l h
  rw [stepwise_selection] at h
  have hproj := selLoopAdds_snd ols columns tIn tOut fuel init []
  rw [h] at hproj
  cases hx : selLoopAdds ols columns tIn tOut fuel init [] with
  | none =>
    rw [hx] at hproj
    exact absurd hproj (by simp)
  | some p =>
    rw [hx] at hproj
    simp only [Option.map_some', Option.some.injEq] at hproj
    have hx2 : selLoopAdds ols columns tIn tOut fuel init [] = some (p.1, l) := by
      rw [hx, ← hproj]
    obtain ⟨suffix, hadds, hsub⟩ :=
      selLoopAdds_decompose ols columns tIn tOut fuel init [] p.1 l hx2
    refine ⟨p.1, ?_, ?_⟩
    · rw [stepwise_selectionAdds]
      exact hx2
    · rw [hadds, List.nil_append]
      exact hsub

theorem stepwise_selection_insertion_order_witness :
    ∃ adds, stepwise_selectionAdds (constOLS 1) ["a"] [] 3 5 2 = some (adds, ["a"]) ∧
      List.Sublist (["a"] : List Name) (([] : List Name) ++ adds) :=
  (stepwise_selection_insertion_order (constOLS 1) ["a"] 3 5).2 [] 2 ["a"] (by decide)

/-- Claim C2 (amended): with `threshold_in < threshold_out` a pass that sets
the `changed` flag really changes the `included` list (in particular the
same feature is never added and removed within one pass, since its p-value
in the very model just fitted would have to be both below `threshold_in`
and above `threshold_out`); each pass is finite, but global termination of
the loop is not guaranteed. -/
theorem stepPass_changed_strict (ols : OLS) (columns : List Name)
    (tIn tOut : PVal) (m : List Name) (hcfg : tIn < tOut)
    (h : (stepPass ols columns tIn tOut m).2 = true) :
    (stepPass ols columns tIn tOut m).1 ≠ m := by
  rcases forwardStep_spec ols columns tIn m with ⟨hf, _⟩ | ⟨b, _, hbm, hblt, _, hf⟩
  · rcases backwardStep_spec ols tOut m with ⟨hb, _⟩ | ⟨w, hwm, _, _, hb⟩
    · rw [stepPass_eq, hf, hb] at h
      simp at h
    · rw [stepPass_eq, hf, hb]
      intro he
      have hlen : (m.erase w).length = m.length - 1 := List.length_erase_of_mem hwm
      have hpos : 0 < m.length := List.length_pos.mpr (List.ne_nil_of_mem hwm)
      have : (m.erase w).length = m.length := congrArg List.length he
      omega
  · rcases backwardStep_spec ols tOut (m ++ [b]) with ⟨hb, _⟩ | ⟨w, hwm, hwgt, _, hb⟩
    · rw [stepPass_eq, hf, hb]
      intro he
      have : (m ++ [b]).length = m.length := congrArg List.length he
      simp at this
    · rw [stepPass_eq, hf, hb]
      show (m ++ [b]).erase w ≠ m
      intro he
      have hwb : w ≠ b := by
        intro hwb
        rw [hwb] at hwgt
        exact absurd hwgt (not_lt.mpr (le_of_lt (lt_trans hblt hcfg)))
      have hbmem : b ∈ (m ++ [b]).erase w :=
        (List.mem_erase_of_ne (Ne.symm hwb)).mpr (by simp)
      rw [he] at hbmem
      exact hbm hbmem

theorem stepPass_changed_strict_witness :
    (stepPass (constOLS 1) ["a"] 3 5 []).1 ≠ [] :=
  stepPass_changed_strict (constOLS 1) ["a"] 3 5 [] (by norm_num) (by decide)

theorem cycOLS_loop_cycles (n : Nat) :
    selLoop cycOLS ["x","y","z"] 3 5 n ["x"] = none ∧
    selLoop cycOLS ["x","y","z"] 3 5 n ["y"] = none ∧
    selLoop cycOLS ["x","y","z"] 3 5 n ["z"] = none := by
  induction n with
  | zero => exact ⟨rfl, rfl, rfl⟩
  | succ k ih =>
    have hx : stepPass cycOLS ["x","y","z"] 3 5 ["x"] = (["y"], true) := by decide
    have hy : stepPass cycOLS ["x","y","z"] 3 5 ["y"] = (["z"], true) := by decide
    have hz : stepPass cycOLS ["x","y","z"] 3 5 ["z"] = (["x"], true) := by decide
    refine ⟨?_, ?_, ?_⟩
    · rw [selLoop_succ, hx]
      simpa using ih.2.1
    · rw [selLoop_succ, hy]
      simpa using ih.2.2
    · rw [selLoop_succ, hz]
      simpa using ih.1

/-- Claim C2 (counterexample): a p-value collaborator whose values depend
only on the fitted column set, together with `threshold_in = 3 <
threshold_out = 5`, on which the loop cycles forever through
`["x"] → ["y"] → ["z"] → ["x"]`: no amount of fuel makes
`stepwise_selection` return, so the claim that every such call terminates
(with at most `|columns|` forward additions) is false. -/
theorem stepwise_selection_can_cycle :
    (3 : PVal) < 5 ∧
    ¬ ∃ fuel l, stepwise_selection cycOLS ["x","y","z"] ["x"] 3 5 fuel = some l := by
  refine ⟨by norm_num, ?_⟩
  rintro ⟨fuel, l, h⟩
  rw [stepwise_selection] at h
  rw [(cycOLS_loop_cycles fuel).1] at h
  exact Option.noConfusion h

theorem readRef_writeRef_self : ∀ (h : Heap) (r : Ref) (v : List Name), r < h.length →
    readRef (writeRef h r v) r = v
  | [], _, _, hr => absurd hr (by simp)
  | _ :: _, 0, _, _ => rfl
  | _ :: t, s + 1, v, hr => readRef_writeRef_self t s v (Nat.lt_of_succ_lt_succ hr)

theorem readRef_writeRef_ne : ∀ (h : Heap) (r s : Ref) (v : List Name), r ≠ s →
    readRef (writeRef h r v) s = readRef h s
  | [], _, _, _, _ => rfl
  | _ :: _, 0, 0, _, hne => absurd rfl hne
  | _ :: _, 0, _ + 1, _, _ => rfl
  | _ :: _, _ + 1, 0, _, _ => rfl
  | _ :: t, r + 1, s + 1, v, hne =>
    readRef_writeRef_ne t r s v (fun e => hne (by rw [e]))

theorem length_writeRef (h : Heap) (r : Ref) (v : List Name) :
    (writeRef h r v).length = h.length := by simp [writeRef]

theorem readRef_append_self : ∀ (h : Heap) (v : List Name),
    readRef (h ++ [v]) h.length = v
  | [], _ => rfl
  | _ :: t, v => readRef_append_self t v

theorem readRef_append_lt : ∀ (h : Heap) (r : Ref) (v : List Name), r < h.length →
    readRef (h ++ [v]) r = readRef h r
  | [], _, _, hr => absurd hr (by simp)
  | _ :: _, 0, _, _ => rfl
  | _ :: t, r + 1, v, hr => readRef_append_lt t r v (Nat.lt_of_succ_lt_succ hr)

theorem selLoopH_spec (ols : OLS) (columns : List Name) (tIn tOut : PVal) :
    ∀ (fuel : Nat) (h : Heap) (r : Ref), r < h.length →
      ∀ hp rp, selLoopH ols columns tIn tOut fuel h r = some (hp, rp) →
        rp = r ∧ hp.length = h.length ∧
        (∀ s, s ≠ r → readRef hp s = readRef h s) ∧
        selLoop ols columns tIn tOut fuel (readRef h r) = some (readRef hp r) := by
  intro fuel
  induction fuel with
  | zero =>
    intro h r _ hp rp hrun
    exact absurd hrun (by simp [selLoopH])
  | succ n ih =>
    intro h r hr hp rp hrun
    have e1 : readRef (writeRef h r (forwardStep ols columns tIn (readRef h r)).1) r
        = (forwardStep ols columns tIn (readRef h r)).1 :=
      readRef_writeRef_self h r _ hr
    simp only [selLoopH, e1] at hrun
    have hr2 : r < (writeRef (writeRef h r (forwardStep ols columns tIn (readRef h r)).1) r
        (backwardStep ols tOut (forwardStep ols columns tIn (readRef h r)).1).1).length := by
      rw [length_writeRef, length_writeRef]; exact hr
    have e2 : readRef (writeRef (writeRef h r (forwardStep ols columns tIn (readRef h r)).1) r
        (backwardStep ols tOut (forwardStep ols columns tIn (readRef h r)).1).1) r
        = (backwardStep ols tOut (forwardStep ols columns tIn (readRef h r)).1).1 :=
      readRef_writeRef_self _ r _ (by rw [length_writeRef]; exact hr)
    by_cases hch : ((forwardStep ols columns tIn (readRef h r)).2 ||
        (backwardStep ols tOut (forwardStep ols columns tIn (readRef h r)).1).2) = true
    · rw [if_pos hch] at hrun
      obtain ⟨hrp, hlen, hframe, hloop⟩ := ih _ _ hr2 hp rp hrun
      refine ⟨hrp, ?_, ?_, ?_⟩
      · rw [hlen, length_writeRef, length_writeRef]
      · intro s hs
        rw [hframe s hs, readRef_writeRef_ne _ r s _ (fun e => hs e.symm),
          readRef_writeRef_ne _ r s _ (fun e => hs e.symm)]
      · rw [selLoop_succ, stepPass_eq, if_pos hch]
        rw [e2] at hloop
        exact hloop
    · rw [if_neg hch] at hrun
      simp only [Option.some.injEq, Prod.mk.injEq] at hrun
      obtain ⟨hh, hrr⟩ := hrun
      subst hh
      subst hrr
      refine ⟨rfl, by rw [length_writeRef, length_writeRef], ?_, ?_⟩
      · intro s hs
        rw [readRef_writeRef_ne _ r s _ (fun e => hs e.symm),
          readRef_writeRef_ne _ r s _ (fun e => hs e.symm)]
      · rw [selLoop_succ, stepPass_eq, if_neg hch, e2]

/-- Claim C9: the heap-level model of `stepwise_selection` never mutates the
caller's `initial_list` cell: it copies it into a freshly allocated cell
(line 22), all appends and removes hit only the fresh cell, the returned
reference is distinct from the argument reference, and the value at the
argument reference is unchanged while the value behind the returned
reference is exactly the pure result of `stepwise_selection` on the
original value.  (In particular repeated calls through the shared mutable
default `initial_list=[]` always start from an empty included set.) -/
theorem stepwise_selection_no_mutation (ols : OLS) (columns : List Name)
    (tIn tOut : PVal) (fuel : Nat) (h : Heap) (rInit : Ref)
    (hr : rInit < h.length) (hp : Heap) (rp : Ref)
    (hrun : stepwise_selectionH ols columns tIn tOut fuel h rInit = some (hp, rp)) :
    readRef hp rInit = readRef h rInit ∧ rp ≠ rInit ∧
    stepwise_selection ols columns (readRef h rInit) tIn tOut fuel =
      some (readRef hp rp) := by
  rw [stepwise_selectionH] at hrun
  have hlen : h.length < (h ++ [readRef h rInit]).length := by simp
  obtain ⟨hrp, _, hframe, hloop⟩ :=
    selLoopH_spec ols columns tIn tOut fuel _ _ hlen hp rp hrun
  have hne : rInit ≠ h.length := Nat.ne_of_lt hr
  refine ⟨?_, ?_, ?_⟩
  · rw [hframe rInit hne, readRef_append_lt h rInit _ hr]
  · rw [hrp]; exact Ne.symm hne
  · rw [stepwise_selection, hrp]
    rw [readRef_append_self h (readRef h rInit)] at hloop
    exact hloop

theorem stepwise_selection_no_mutation_witness :
    readRef [["a"], []] 0 = readRef [["a"]] 0 ∧ (1 : Ref) ≠ 0 ∧
    stepwise_selection (constOLS 10) ["a"] (readRef [["a"]] 0) 3 5 2 =
      some (readRef [["a"], []] 1) :=
  stepwise_selection_no_mutation (constOLS 10) ["a"] 3 5 2 [["a"]] 0 (by decide)
    [["a"], []] 1 (by decide)

theorem selLoopFits_spec (ols : OLS) (columns : List Name) (tIn tOut : PVal) :
    ∀ (fuel : Nat) (m : List Name) (acc tr : List (List Name)) (l : List Name),
      (∀ c ∈ m, c ∈ columns) → (∀ d ∈ acc, ∀ nm ∈ d, nm ∈ columns) →
      selLoopFits ols columns tIn tOut fuel m acc = some (tr, l) →
      selLoop ols columns tIn tOut fuel m = some l ∧
      (∀ d ∈ tr, ∀ nm ∈ d, nm ∈ columns) := by
  intro fuel
  induction fuel with
  | zero =>
    intro m acc tr l _ _ hrun
    exact absurd hrun (by simp [selLoopFits])
  | succ n ih =>
    intro m acc tr l hm hacc hrun
    simp only [selLoopFits] at hrun
    have hmid : ∀ c ∈ (forwardStep ols columns tIn m).1, c ∈ columns := by
      rcases forwardStep_spec ols columns tIn m with ⟨hf, _⟩ | ⟨b, hbc, _, _, _, hf⟩
      · rw [hf]; exact hm
      · rw [hf]
        intro c hc
        rcases List.mem_append.mp hc with hcm | hcb
        · exact hm c hcm
        · rw [List.mem_singleton.mp hcb]; exact hbc
    have hacc2 : ∀ d ∈ acc ++ (excludedOf columns m).map (fun c => m ++ [c]) ++
        [(forwardStep ols columns tIn m).1], ∀ nm ∈ d, nm ∈ columns := by
      intro d hd
      rcases List.mem_append.mp hd with hd1 | hd2
      · rcases List.mem_append.mp hd1 with hda | hdm
        · exact hacc d hda
        · obtain ⟨c, hc, rfl⟩ := List.mem_map.mp hdm
          intro nm hnm
          rcases List.mem_append.mp hnm with h1 | h2
          · exact hm nm h1
          · rw [List.mem_singleton.mp h2]; exact (mem_excludedOf.mp hc).1
      · rw [List.mem_singleton.mp hd2]
        exact hmid
    have hbsub : ∀ c ∈ (backwardStep ols tOut (forwardStep ols columns tIn m).1).1,
        c ∈ columns := by
      rcases backwardStep_spec ols tOut (forwardStep ols columns tIn m).1 with
        ⟨hb, _⟩ | ⟨w, _, _, _, hb⟩
      · rw [hb]; exact hmid
      · rw [hb]; exact fun c hc => hmid c (List.erase_subset _ _ hc)
    by_cases hch : ((forwardStep ols columns tIn m).2 ||
        (backwardStep ols tOut (forwardStep ols columns tIn m).1).2) = true
    · rw [if_pos hch] at hrun
      obtain ⟨hsel, htr⟩ := ih _ _ tr l hbsub hacc2 hrun
      refine ⟨?_, htr⟩
      rw [selLoop_succ, stepPass_eq, if_pos hch]
      exact hsel
    · rw [if_neg hch] at hrun
      simp only [Option.some.injEq, Prod.mk.injEq] at hrun
      obtain ⟨htr, hl⟩ := hrun
      subst htr
      refine ⟨?_, hacc2⟩
      rw [selLoop_succ, stepPass_eq, if_neg hch, hl]

/-- Claim C10: every OLS fit the algorithm performs regresses `y` on exactly
the columns named by the current `included` list (the backward fit) or on
`included` with the single candidate column appended last (the forward
fits); the instrumented run agrees with the plain run, and no design ever
contains a name outside the columns of `X` — in particular no
intercept/constant column is ever added, so every decision p-value comes
from a regression through the origin. -/
theorem stepwise_selection_fit_designs (ols : OLS) (columns : List Name)
    (init : List Name) (tIn tOut : PVal) (fuel : Nat)
    (tr : List (List Name)) (l : List Name)
    (hs : ∀ c ∈ init, c ∈ columns)
    (h : stepwise_selectionFits ols columns init tIn tOut fuel = some (tr, l)) :
    stepwise_selection ols columns init tIn tOut fuel = some l ∧
    (∀ d ∈ tr, ∀ nm ∈ d, nm ∈ columns) := by
  rw [stepwise_selectionFits] at h
  obtain ⟨hsel, htr⟩ := selLoopFits_spec ols columns tIn tOut fuel init [] tr l hs
    (fun d hd => absurd hd (List.not_mem_nil d)) h
  exact ⟨by rw [stepwise_selection]; exact hsel, htr⟩

theorem stepwise_selection_fit_designs_witness :
    stepwise_selection (constOLS 1) ["a"] [] 3 5 2 = some ["a"] ∧
    (∀ d ∈ [["a"], ["a"], ["a"]], ∀ nm ∈ d, nm ∈ (["a"] : List Name)) :=
  stepwise_selection_fit_designs (constOLS 1) ["a"] [] 3 5 2 [["a"], ["a"], ["a"]] ["a"]
    (by decide) (by decide)

end StockEstimate
